import Mathlib

/-!
# aql-builder: shallow embedding and verification

This file embeds the query-assembly core of the `aql-builder` TypeScript
library (shorthand expansion, path/label rendering, filter wrapping,
aggregate rendering, clause assembly, the function-compatibility table and
the fluent builder's `filterBy`) as executable Lean definitions, and proves
or refutes a list of specification claims about it.

Sources embedded (the current revision is the one consistent with the
repository's test suite):
* `src/build-query.ts` — `buildQuery`, `renderSubQuery`, `renderAggregatePath`,
  `wrapFilter`, `renderReturn`, `renderPath`, `renderLabel`, `sanitizeName`,
  `aqIndent` (the revision with depth-aware indentation, comment clauses and
  `value: 'dynamic'` handling);
* `src/query.ts` — the `AqQuery` shape and `expandAqShorthand`;
* `src/type-guards.ts` — `isSupportedFunction` and `SupportedAqlFunctions`;
* `src/builder.ts` — `AqBuilder.filterBy`.

Modelling conventions:
* JS `undefined`/optional fields become `Option`; the `string | false`
  document scope becomes `AqDoc` (`unset` / `off` / `named`).
* The arangojs `aql` template-literal mechanism is modelled by token lists
  (`GenAql`): a plain interpolated value becomes a `bind` token (a positional
  `@valueN` placeholder recorded in the bind-variable map, numbered in
  first-use order when the final query is rendered), while `literal(x)`
  becomes a `raw` token spliced verbatim.  `arangojs`'s
  `literal(undefined)` stringifies the nullish value to the empty string.
* JS records (`Record<string, string>`) used as accumulators become
  insertion-ordered association lists with overwrite-on-assign (`recordSet`),
  matching JS object-key semantics.
* Collection handles (`ArangoCollection`) are modelled as plain collection
  name strings: no claim below depends on the handle branch of the `FOR`
  clause.
-/

/-- A JSON primitive value (`JsonPrimitive` from `@salesforce/ts-types`),
used for filter comparison operands. -/
inductive AqValue where
  | str (s : String)
  | num (n : Int)
  | boolean (b : Bool)
  | null
deriving DecidableEq, Repr

/-- JavaScript `String(v)` coercion, as performed by arangojs `literal`. -/
def AqValue.toLiteral : AqValue → String
  | .str s => s
  | .num n => toString n
  | .boolean true => "true"
  | .boolean false => "false"
  | .null => "null"

def AqValue.isStr : AqValue → Bool
  | .str _ => true
  | _ => false

/-- A value recorded in the output bind-variable map: either a primitive or a
whole array bound as a single parameter. -/
inductive BindVal where
  | prim (v : AqValue)
  | list (vs : List AqValue)
deriving DecidableEq, Repr

/-- One piece of a generated AQL query: raw text (spliced via `literal`) or a
bound value (spliced via plain template interpolation). -/
inductive AqToken where
  | raw (s : String)
  | bind (v : BindVal)
deriving DecidableEq, Repr

/-- A `GeneratedAqlQuery` before final placeholder numbering. -/
abbrev GenAql := List AqToken

/-- Final rendering of a token list: bound values receive positional
`@valueN` placeholder names in first-use order, and are recorded in the
returned bind-variable map. -/
def renderTokens : GenAql → Nat → String × List (String × BindVal)
  | [], _ => ("", [])
  | .raw s :: ts, n =>
    let r := renderTokens ts n
    (s ++ r.1, r.2)
  | .bind v :: ts, n =>
    let r := renderTokens ts (n + 1)
    ("@value" ++ toString n ++ r.1, ("value" ++ toString n, v) :: r.2)

/-- The final query text of a generated query. -/
def aqlText (q : GenAql) : String := (renderTokens q 0).1

/-- The final bind-variable map of a generated query. -/
def aqlBindVars (q : GenAql) : List (String × BindVal) := (renderTokens q 0).2

/-- `join` from `arangojs/aql`: concatenate query fragments with a raw
separator between consecutive fragments. -/
def aqJoin (segments : List GenAql) (sep : String) : GenAql :=
  match segments with
  | [] => []
  | [q] => q
  | q :: rest => q ++ [.raw sep] ++ aqJoin rest sep

/-- Two spaces per nesting level (`'  '.repeat(amount)`). -/
def indentStr (amount : Nat) : String := String.join (List.replicate amount "  ")

/-- `aqIndent` from `build-query.ts`: an indentation literal token. -/
def aqIndent (amount : Nat) : AqToken := .raw (indentStr amount)

/-- The `document` attribute of a property: absent (`undefined`), the literal
`false` (no scope prefix at all), or an iteration-variable name. -/
inductive AqDoc where
  | unset
  | off
  | named (s : String)
deriving DecidableEq, Repr

/-- The `type` attribute of a property. -/
inductive AqType where
  | string
  | number
  | boolean
  | object
  | array
deriving DecidableEq, Repr

/-- The tag string a property type contributes when checked against the
function-compatibility table. -/
def AqType.tag : AqType → String
  | .string => "string"
  | .number => "number"
  | .boolean => "boolean"
  | .object => "object"
  | .array => "array"

/-- `AqProperty` from `property.ts`.  In an `AqAggregate`, the same
`function` slot holds the aggregate function (the TS type intersection
merges the two fields). -/
structure AqProperty where
  name : Option String := none
  path : Option String := none
  document : AqDoc := .unset
  type : Option AqType := none
  function : Option String := none
deriving DecidableEq, Repr

/-- `AqAggregate = AqProperty & { function: AqlAggregateFunction }`: the
aggregate function lives in the property's `function` slot. -/
abbrev AqAggregate := AqProperty

/-- The `value` attribute of a filter: `'literal' | 'dynamic'`. -/
inductive AqValueMode where
  | literal
  | dynamic
deriving DecidableEq, Repr

/-- The `in` attribute of a filter: `JsonPrimitive[] | string`. -/
inductive AqInOperand where
  | vals (vs : List AqValue)
  | ref (s : String)
deriving DecidableEq, Repr

/-- `AqFilter` from `property.ts`.  `lt`/`gt` are `string | number` in TS;
the embedding reuses `AqValue` for them. -/
structure AqFilter extends AqProperty where
  eq : Option AqValue := none
  lt : Option AqValue := none
  gt : Option AqValue := none
  inVal : Option AqInOperand := none
  contains : Option AqValue := none
  value : Option AqValueMode := none
  negate : Bool := false
deriving DecidableEq, Repr

/-- Sort direction. -/
inductive SortDirection where
  | asc
  | desc
deriving DecidableEq, Repr

/-- `sortMap` from `property.ts`. -/
def sortMap : SortDirection → String
  | .asc => "ASC"
  | .desc => "DESC"

/-- `AqSort` from `property.ts`. -/
structure AqSort extends AqProperty where
  direction : SortDirection
deriving DecidableEq, Repr

/-! ## `type-guards.ts`: the function-compatibility table -/

/-- `SupportedAqlFunctions` from `type-guards.ts`, transcribed entry for
entry (an insertion-ordered record). -/
def SupportedAqlFunctions : List (String × List String) := [
  -- Standalone
  ("date_now", []),
  ("uuid", []),
  ("rand", []),
  -- Arrays/strings
  ("count", ["array", "string", "aggregate"]),
  ("length", ["array", "string", "aggregate"]),
  ("reverse", ["array", "string"]),
  -- Objects
  ("json_stringify", ["*"]),
  -- Aggregates only
  ("sorted_unique", ["aggregate"]),
  ("count_unique", ["aggregate"]),
  ("count_distinct", ["aggregate"]),
  ("distinct", ["aggregate"]),
  ("collect", ["aggregate"]),
  -- Arrays
  ("first", ["array"]),
  ("pop", ["array"]),
  ("unique", ["array", "aggregate"]),
  ("sorted", ["array"]),
  ("max", ["array", "aggregate"]),
  ("min", ["array", "aggregate"]),
  ("avg", ["array", "aggregate"]),
  ("average", ["array", "aggregate"]),
  ("median", ["array"]),
  ("stddev_population", ["array", "aggregate"]),
  ("stddev_sample", ["array", "aggregate"]),
  ("stddev", ["array", "aggregate"]),
  ("sum", ["array", "aggregate"]),
  ("variance_population", ["array", "aggregate"]),
  ("variance_sample", ["array", "aggregate"]),
  ("variance", ["array", "aggregate"]),
  -- Dates (numeric timestamps or ISO 8601 strings)
  ("date_iso8601", ["number", "string"]),
  ("date_dayofweek", ["number", "string"]),
  ("date_year", ["number", "string"]),
  ("date_month", ["number", "string"]),
  ("date_day", ["number", "string"]),
  ("date_hour", ["number", "string"]),
  ("date_minute", ["number", "string"]),
  ("date_second", ["number", "string"]),
  ("date_millisecond", ["number", "string"]),
  ("date_dayofyear", ["number", "string"]),
  ("date_isoweek", ["number", "string"]),
  ("date_leapyear", ["number", "string"]),
  ("date_quarter", ["number", "string"]),
  ("date_days_in_month", ["number", "string"]),
  ("date_trunc", ["number", "string"]),
  -- Numbers
  ("abs", ["number"]),
  ("acos", ["number"]),
  ("asin", ["number"]),
  ("atan", ["number"]),
  ("ceil", ["number"]),
  ("cos", ["number"]),
  ("degrees", ["number"]),
  ("exp", ["number"]),
  ("exp2", ["number"]),
  ("floor", ["number"]),
  ("log", ["number"]),
  ("log2", ["number"]),
  ("log10", ["number"]),
  ("product", ["array"]),
  ("radians", ["number"]),
  ("random_token", ["number"]),
  ("round", ["number"]),
  ("sin", ["number"]),
  ("sqrt", ["number"]),
  ("tan", ["number"]),
  -- String manipulation
  ("char_length", ["string"]),
  ("concat", ["array"]),
  ("crc32", ["string"]),
  ("encode_uri_component", ["string"]),
  ("fnv64", ["string"]),
  ("json_parse", ["string"]),
  ("lower", ["string"]),
  ("ltrim", ["string"]),
  ("md5", ["string"]),
  ("rtrim", ["string"]),
  ("sha1", ["string"]),
  ("sha512", ["string"]),
  ("soundex", ["string"]),
  ("to_base64", ["string"]),
  ("to_hex", ["string"]),
  ("trim", ["string"]),
  ("upper", ["string"]),
  -- Type coercion
  ("to_bool", ["*"]),
  ("to_number", ["*"]),
  ("to_string", ["*"]),
  ("to_array", ["*"]),
  ("to_list", ["*"]),
  -- Type checking
  ("is_null", ["*"]),
  ("is_bool", ["*"]),
  ("is_number", ["*"]),
  ("is_string", ["*"]),
  ("is_array", ["*"]),
  ("is_list", ["*"]),
  ("is_object", ["*"]),
  ("is_document", ["*"]),
  ("is_datestring", ["*"]),
  ("is_ipv4", ["*"]),
  ("is_key", ["*"]),
  ("typename", ["*"])]

/-- `SupportedAqlFunctions[funcName]`. -/
def lookupFunctionTypes (funcName : String) : Option (List String) :=
  (SupportedAqlFunctions.find? (fun kv => kv.1 == funcName)).map (fun kv => kv.2)

/-- `isSupportedFunction` from `type-guards.ts` (core): the function name is
either a string (with an optional separate `valueType`) or comes from a
property (with the property's own `type`); both call shapes funnel into this
definition. -/
def isSupportedFunction (funcName : Option String) (aggregate : Bool)
    (valueType : Option String) : Bool :=
  match funcName with
  | none => false
  | some fn =>
    match lookupFunctionTypes fn with
    | none => false  -- Bail if there's simply no knowledge of the function
    | some supportedTypes =>
      -- Bail if we're using it as an aggregate, but it's not aggregate-friendly
      if aggregate && !(supportedTypes.contains "aggregate") then false
      else
        match valueType with
        | none => supportedTypes.contains fn
        | some t =>
          supportedTypes.isEmpty || supportedTypes.contains "*" ||
            supportedTypes.contains t

/-- The property-shaped call `isSupportedFunction(input, aggregate)`. -/
def isSupportedFunctionProp (p : AqProperty) (aggregate : Bool) : Bool :=
  isSupportedFunction p.function aggregate (p.type.map AqType.tag)

/-! ## `build-query.ts`: path, label and aggregate rendering -/

/-- A character replaced by `sanitizeName` (the regex `/[[\].-\s@]/g`). -/
def isSanitizeTarget (c : Char) : Bool :=
  c == '[' || c == ']' || c == '.' || c == '-' || c == '@' || c.isWhitespace

/-- `sanitizeName` from `build-query.ts` with the default replacement `'_'`
(a character-wise replacement, written over the character list so that it
evaluates inside the kernel). -/
def sanitizeName (input : String) : String :=
  ⟨input.data.map (fun c => if isSanitizeTarget c then '_' else c)⟩

/-- `renderLabel`: `sanitizeName(p.name ?? p.path ?? 'ERROR')`. -/
def renderLabel (p : AqProperty) : String :=
  sanitizeName (p.name.getD (p.path.getD "ERROR"))

/-- `renderFunction`: wrap the rendered path in the property's scalar
function when the compatibility check passes. -/
def renderFunction (path : String) (p : AqProperty) : String :=
  if isSupportedFunctionProp p false then
    match p.function with
    | some f => f.toUpper ++ "(" ++ path ++ ")"
    | none => path
  else path

/-- `renderPath` from `build-query.ts`:
`prefix = p.document === false ? '' : p.document ?? document ?? ''`, then
`(prefix ? prefix + '.' : '') + (p.path ?? p.name)`, then `renderFunction`. -/
def renderPath (p : AqProperty) (document : AqDoc) : String :=
  let pfx :=
    match p.document with
    | .off => ""
    | .named s => s
    | .unset =>
      match document with
      | .named s => s
      | _ => ""
  let path := (if pfx != "" then pfx ++ "." else "") ++ (p.path.getD (p.name.getD "undefined"))
  renderFunction path p

/-- The numeric reduction functions that trigger length coercion. -/
def numericAggregates : List String := ["min", "max", "sum", "avg"]

/-- `renderAggregatePath` from `build-query.ts`: destructure the aggregate
function away from the property, render the bare path, and (when the
function passes the aggregate-context support check) apply the function,
redirecting numeric reductions on non-`number` properties through
`CHAR_LENGTH` (strings) or `LENGTH` (everything else). -/
def renderAggregatePath (p : AqAggregate) (document : AqDoc) : String :=
  let func := p.function
  let cleanProperty : AqProperty := { p with function := none }
  let path := renderPath cleanProperty document
  match func with
  | none => path
  | some f =>
    if isSupportedFunction (some f) true none then
      if numericAggregates.contains f then
        if p.type == some .string then f.toUpper ++ "(CHAR_LENGTH(" ++ path ++ "))"
        else if p.type != some .number then f.toUpper ++ "(LENGTH(" ++ path ++ "))"
        else f.toUpper ++ "(" ++ path ++ ")"
      else if f == "collect" then path
      else f.toUpper ++ "(" ++ path ++ ")"
    else path

/-! ## `build-query.ts`: filter condition rendering -/

/-- The operand-splicing choice used by the `eq`/`lt`/`gt` branches of
`wrapFilter`: `p.value !== 'dynamic' ? v : literal(v)` — a non-`dynamic`
operand is bound, a `dynamic` one is spliced as a raw identifier. -/
def bindOrRaw (mode : Option AqValueMode) (v : AqValue) : AqToken :=
  if mode != some .dynamic then .bind (.prim v) else .raw v.toLiteral

/-- `wrapFilter` from `build-query.ts`: one condition fragment per set
comparison key, in the fixed order `eq`, `lt`, `gt`, `in`, `contains`.
The `FILTER` keyword itself is prepended by the caller. -/
def wrapFilter (p : AqFilter) (document : AqDoc) : List GenAql :=
  let path := renderPath p.toAqProperty document
  let conditions : List GenAql := []
  let conditions := match p.eq with
    | some v => conditions ++
        [[.raw path, .raw " ", .raw (if p.negate then "!=" else "=="), .raw " ",
          bindOrRaw p.value v]]
    | none => conditions
  let conditions := match p.lt with
    | some v => conditions ++
        [[.raw path, .raw " ", .raw (if p.negate then ">=" else "<"), .raw " ",
          bindOrRaw p.value v]]
    | none => conditions
  let conditions := match p.gt with
    | some v => conditions ++
        [[.raw path, .raw " ", .raw (if p.negate then "<=" else ">"), .raw " ",
          bindOrRaw p.value v]]
    | none => conditions
  let conditions := match p.inVal with
    | some op =>
      -- `if (p.value !== 'dynamic' && typeof p.in === 'string')` splice raw,
      -- else bind the operand (arrays are bound as a single parameter).
      match op with
      | .ref s =>
        if p.value != some .dynamic then
          conditions ++
            [[.raw path, .raw " ", .raw (if p.negate then "NOT IN" else "IN"), .raw " ",
              .raw s]]
        else
          conditions ++
            [[.raw path, .raw " ", .raw (if p.negate then "NOT IN" else "IN"), .raw " ",
              .bind (.prim (.str s))]]
      | .vals vs =>
        conditions ++
          [[.raw path, .raw " ", .raw (if p.negate then "NOT IN" else "IN"), .raw " ",
            .bind (.list vs)]]
    | none => conditions
  let conditions := match p.contains with
    | some v =>
      if p.value == some .dynamic then
        conditions ++
          [[.raw v.toLiteral, .raw " ", .raw (if p.negate then "NOT IN" else "IN"),
            .raw " ", .raw path]]
      else
        if p.type == some .string && v.isStr then
          -- the source appends a stray quote after the bound operand
          conditions ++
            [[.raw path, .raw " ", .raw (if p.negate then "NOT LIKE" else "LIKE"),
              .raw " ", .bind (.prim v), .raw "'"]]
        else
          conditions ++
            [[.bind (.prim v), .raw " ", .raw (if p.negate then "NOT IN" else "IN"),
              .raw " ", .raw path]]
    | none => conditions
  conditions

/-! ## JS record accumulators -/

/-- Assignment into a JS `Record<string, string>`: an existing key keeps its
insertion position but its value is overwritten; a new key is appended. -/
def recordSet (m : List (String × String)) (k v : String) : List (String × String) :=
  if m.any (fun kv => kv.1 == k) then
    m.map (fun kv => if kv.1 == k then (kv.1, v) else kv)
  else m ++ [(k, v)]

/-- Lookup in a JS record. -/
def recordGet : List (String × String) → String → Option String
  | [], _ => none
  | kv :: m, k => if kv.1 == k then some kv.2 else recordGet m k

/-- Key-membership in a JS record. -/
def recordHasKey (m : List (String × String)) (k : String) : Bool :=
  m.any (fun kv => kv.1 == k)

/-- `renderReturn` from `build-query.ts`: no accumulated properties returns
the bare document variable; exactly one returns its value; several render an
object literal whose shorthand entries (`label` = value) collapse. -/
def renderReturn (properties : List (String × String)) (depth : Nat)
    (document : String) : GenAql :=
  match properties with
  | [] => [aqIndent depth, .raw "RETURN ", .raw document]
  | [entry] => [aqIndent depth, .raw "RETURN ", .raw entry.2]
  | entries =>
    let l := String.intercalate ",\n" (entries.map (fun entry =>
      if entry.1 == entry.2 then indentStr (depth + 1) ++ entry.1
      else indentStr (depth + 1) ++ entry.1 ++ ": " ++ entry.2))
    [aqIndent depth, .raw "RETURN \x7b\n", .raw l, .raw "\n", aqIndent depth, .raw "\x7d"]

/-! ## `query.ts`: the query description -/

/-- Shorthand for a list entry: a bare string, a `[name, path]` tuple, or a
full object. -/
inductive Sh (α : Type) where
  | strV (s : String)
  | pairV (n pa : String)
  | fullV (x : α)
deriving DecidableEq, Repr

def Sh.isFull {α : Type} : Sh α → Bool
  | .fullV _ => true
  | _ => false

/-- The `count` field of an `AqQuery`: absent, `false`, or a label. -/
inductive CountField where
  | unset
  | off
  | label (s : String)
deriving DecidableEq, Repr

/-- The `count` field after expansion: `false` or a label. -/
inductive CountVal where
  | off
  | label (s : String)
deriving DecidableEq, Repr

/-- The `sorts` field: absent, the explicit `null` sentinel, or a list. -/
inductive SortsField (α : Type) where
  | unset
  | nullSort
  | items (l : List α)
deriving DecidableEq, Repr

/-- The `limit` field: absent, `false`, or a number. -/
inductive LimitField where
  | unset
  | off
  | num (n : Int)
deriving DecidableEq, Repr

/-- The key selector of an `AqRemove` clause (`RequireExactlyOne` of
`property`/`value`). -/
inductive RemoveKey where
  | property (s : String)
  | value (s : String)
deriving DecidableEq, Repr

/-- One entry of an expanded `remove` list: a bare collection name or an
`AqRemove` clause. -/
inductive RemoveTarget where
  | coll (s : String)
  | clause (collection : String) (key : RemoveKey)
deriving DecidableEq, Repr

/-- The `remove` field of an `AqQuery`: `true` or a list of targets. -/
inductive RemoveField where
  | all
  | targets (l : List RemoveTarget)
deriving DecidableEq, Repr

mutual
/-- `AqQuery` from `query.ts` (the `metadata` field carries no behavior and
is omitted; `return` is called `ret` because `return` is a Lean keyword). -/
inductive AqQuery : Type where
  | mk
    (comment : Option String)
    (collection : String)
    (document : Option String)
    (inline : Bool)
    (subqueries : List AqSubItem)
    (filters : List (Sh AqFilter))
    (aggregates : List (Sh AqAggregate))
    (count : CountField)
    (sorts : SortsField (Sum String AqSort))
    (limit : LimitField)
    (ret : Option (List (Sh AqProperty)))
    (remove : Option RemoveField)

/-- An entry of `subqueries`: an `AqSubquery` wrapper (property attributes
plus a nested query) or a bare nested `AqQuery`. -/
inductive AqSubItem : Type where
  | wrapped (name : Option String) (document : AqDoc) (type : Option AqType)
      (function : Option String) (query : AqQuery)
  | plain (query : AqQuery)
end

namespace AqQuery

def comment : AqQuery → Option String
  | .mk c _ _ _ _ _ _ _ _ _ _ _ => c

def collection : AqQuery → String
  | .mk _ c _ _ _ _ _ _ _ _ _ _ => c

def document : AqQuery → Option String
  | .mk _ _ d _ _ _ _ _ _ _ _ _ => d

def inline : AqQuery → Bool
  | .mk _ _ _ i _ _ _ _ _ _ _ _ => i

def subqueries : AqQuery → List AqSubItem
  | .mk _ _ _ _ s _ _ _ _ _ _ _ => s

def filters : AqQuery → List (Sh AqFilter)
  | .mk _ _ _ _ _ f _ _ _ _ _ _ => f

def aggregates : AqQuery → List (Sh AqAggregate)
  | .mk _ _ _ _ _ _ a _ _ _ _ _ => a

def count : AqQuery → CountField
  | .mk _ _ _ _ _ _ _ c _ _ _ _ => c

def sorts : AqQuery → SortsField (Sum String AqSort)
  | .mk _ _ _ _ _ _ _ _ s _ _ _ => s

def limit : AqQuery → LimitField
  | .mk _ _ _ _ _ _ _ _ _ l _ _ => l

def ret : AqQuery → Option (List (Sh AqProperty))
  | .mk _ _ _ _ _ _ _ _ _ _ r _ => r

def remove : AqQuery → Option RemoveField
  | .mk _ _ _ _ _ _ _ _ _ _ _ r => r

/-- The in-place `q.inline = true` assignment performed on subqueries by
`buildQuery` before rendering them. -/
def setInline : AqQuery → AqQuery
  | .mk c co d _ s f a cnt so l r rm => .mk c co d true s f a cnt so l r rm

end AqQuery

/-- `AqlExpansionOptions` from `query.ts`.  `parentDocument` is declared in
the source but never consumed. -/
structure AqOptions where
  document : Option String := none
  parentDocument : Option String := none
  count : Option String := none
  inline : Bool := false
deriving DecidableEq, Repr

/-- `AqStrict`: the output shape of `expandAqShorthand` — every list entry
in full typed form, `document` and `count` defaulted.  (Nested subqueries
are not expanded; expansion does not recurse.) -/
structure AqStrict where
  comment : Option String
  collection : String
  document : String
  inline : Bool
  subqueries : List AqSubItem
  filters : List AqFilter
  aggregates : List AqAggregate
  count : CountVal
  sorts : SortsField AqSort
  limit : LimitField
  ret : Option (List AqProperty)
  remove : Option (List RemoveTarget)

/-! ## `expandAqShorthand` -/

/-- Filter shorthand: bare string/tuple becomes an "attribute is not null"
filter (`eq: null, negate: true`). -/
def expandFilterSh : Sh AqFilter → AqFilter
  | .strV s => { path := some s, eq := some .null, negate := true }
  | .pairV n pa => { name := some n, path := some pa, eq := some .null, negate := true }
  | .fullV f => f

/-- Aggregate shorthand: bare string/tuple becomes a `collect` aggregate. -/
def expandAggregateSh : Sh AqAggregate → AqAggregate
  | .strV s => { path := some s, function := some "collect" }
  | .pairV n pa => { name := some n, path := some pa, function := some "collect" }
  | .fullV a => a

/-- Sort shorthand: a bare string becomes a descending sort. -/
def expandSortSh : Sum String AqSort → AqSort
  | .inl s => { path := some s, direction := .desc }
  | .inr x => x

/-- Return shorthand: bare string/tuple becomes a plain property. -/
def expandReturnSh : Sh AqProperty → AqProperty
  | .strV s => { path := some s }
  | .pairV n pa => { name := some n, path := some pa }
  | .fullV p => p

/-- `remove` expansion: `true` becomes a single `_key`-based clause against
the query's own collection; an explicit list is mapped entry-by-entry to
itself. -/
def expandRemove (collection : String) : RemoveField → List RemoveTarget
  | .all => [.clause collection (.property "_key")]
  | .targets l => l.map (fun ir => ir)

/-- `expandAqShorthand` from `query.ts`.  The `{ ...options, ...input }`
merge lets an option value stand in only when the input field is absent;
`document` then defaults to `'item'` and `count` to `'total'`.  Throws (the
source raises `TypeError('Return and remove clauses are mutually
exclusive')`) when both `return` and `remove` are present after expansion. -/
def expandAqShorthand (input : AqQuery) (options : AqOptions) :
    Except String AqStrict :=
  let doc := (input.document.orElse (fun _ => options.document)).getD "item"
  let inl := input.inline || options.inline
  let cnt : CountVal :=
    match input.count with
    | .unset =>
      match options.count with
      | some c => .label c
      | none => .label "total"
    | .off => .off
    | .label s => .label s
  let filters := input.filters.map expandFilterSh
  let aggregates := input.aggregates.map expandAggregateSh
  let sorts : SortsField AqSort :=
    match input.sorts with
    | .unset => .unset
    | .nullSort => .nullSort
    | .items l => .items (l.map expandSortSh)
  let ret := input.ret.map (fun l => l.map expandReturnSh)
  let remove := input.remove.map (expandRemove input.collection)
  if remove.isSome && ret.isSome then
    .error "Return and remove clauses are mutually exclusive"
  else
    .ok {
      comment := input.comment
      collection := input.collection
      document := doc
      inline := inl
      subqueries := input.subqueries
      filters := filters
      aggregates := aggregates
      count := cnt
      sorts := sorts
      limit := input.limit
      ret := ret
      remove := remove }

/-- The caller-visible state of the input query object after
`expandAqShorthand` returns (or throws): the top-level object is shallow
copied (`{ ...options, ...input }`), so scalar fields and the `remove`
reassignment only touch the copy — but the `filters`, `aggregates`, `sorts`
and `return` arrays are shared with the caller, and the per-element
expansion loops assign expanded objects back into those shared arrays. -/
def expandAqShorthandEffect (input : AqQuery) : AqQuery :=
  .mk input.comment input.collection input.document input.inline input.subqueries
    (input.filters.map (fun x => .fullV (expandFilterSh x)))
    (input.aggregates.map (fun x => .fullV (expandAggregateSh x)))
    input.count
    (match input.sorts with
      | .items l => .items (l.map (fun x => .inr (expandSortSh x)))
      | s => s)
    input.limit
    (input.ret.map (fun l => l.map (fun x => .fullV (expandReturnSh x))))
    input.remove

/-- A query whose `filters`, `aggregates`, `sorts` and `return` lists hold
no shorthand entries. -/
def noShorthand (q : AqQuery) : Bool :=
  q.filters.all Sh.isFull && q.aggregates.all Sh.isFull &&
  (match q.sorts with
    | .items l => l.all (fun x => x.isRight)
    | _ => true) &&
  (q.ret.getD []).all Sh.isFull

/-! ## `buildQuery`: aggregation promotion and accumulators -/

/-- The aggregation-promotion step of `buildQuery`: when any aggregates are
declared, every `return` property not scoped `document: false` is coerced
into a `collect` aggregate appended to the aggregates list, and the `return`
list is cleared. -/
def promoteAggregates (aggregates : List AqAggregate)
    (ret : Option (List AqProperty)) : List AqAggregate × Option (List AqProperty) :=
  if aggregates.length != 0 then
    (aggregates ++
      ((ret.getD []).filter (fun p => p.document != .off)).map
        (fun p => { p with function := some "collect" }),
      none)
  else (aggregates, ret)

/-- The three key/value accumulators of `buildQuery`. -/
structure Accums where
  collected : List (String × String)
  aggregated : List (String × String)
  document : List (String × String)
deriving Repr, DecidableEq

/-- One step of the aggregates loop of `buildQuery`: `collect` aggregates
feed the grouping map, everything else the reduction map; both place their
label into the return-object map. -/
def accumulateStep (doc : String) (acc : Accums) (p : AqAggregate) : Accums :=
  let func := p.function
  let cleanProp : AqProperty := { p with function := none }
  if func == some "collect" then
    { acc with
      collected := recordSet acc.collected (renderLabel cleanProp)
        (renderPath cleanProp (.named doc)),
      document := recordSet acc.document (renderLabel cleanProp) (renderLabel cleanProp) }
  else
    { acc with
      aggregated := recordSet acc.aggregated (renderLabel p)
        (renderAggregatePath p (.named doc)),
      document := recordSet acc.document (renderLabel p) (renderLabel p) }

/-- The return-properties loop of `buildQuery`: the return-object map gains
`label → rendered path` for every remaining return property. -/
def docMapOfReturn (doc : String) (ps : List AqProperty) : List (String × String) :=
  ps.foldl (fun m p => recordSet m (renderLabel p) (renderPath p (.named doc))) []

/-- The accumulators after the return- and aggregates-loops of `buildQuery`
(run on the promoted lists). -/
def accumulate (doc : String) (aggs : List AqAggregate)
    (ret : Option (List AqProperty)) : Accums :=
  aggs.foldl (accumulateStep doc)
    { collected := [], aggregated := [], document := docMapOfReturn doc (ret.getD []) }

/-! ## `buildQuery`: clause segments -/

/-- `FOR <document> IN <collection>`. -/
def forSegment (doc collection : String) (depth : Nat) : GenAql :=
  [aqIndent depth, .raw "FOR ", .raw doc, .raw " IN ", .raw collection]

/-- The filter clauses of `buildQuery`: each filter on the selected side of
the collect divide contributes one `FILTER` clause per condition fragment. -/
def filterSegments (filters : List AqFilter) (doc : String) (pre : Bool)
    (depth : Nat) : List GenAql :=
  ((filters.filter (fun p => if pre then p.document != .off else p.document == .off)).map
    (fun p => (wrapFilter p (.named doc)).map
      (fun q => [aqIndent depth, AqToken.raw "FILTER "] ++ q))).flatten

/-- One grouping assignment inside the `COLLECT` clause. -/
def collectEntrySegments (collected : List (String × String)) (depth : Nat) :
    List GenAql :=
  collected.map (fun kv => [aqIndent (depth + 1), .raw kv.1, .raw " = ", .raw kv.2])

/-- One reduction assignment inside the `AGGREGATE` clause (the source
indents these with a fixed two-space literal). -/
def aggregateEntrySegments (aggregated : List (String × String)) : List GenAql :=
  aggregated.map (fun kv => [AqToken.raw "  ", .raw kv.1, .raw " = ", .raw kv.2])

/-- The implicit `COUNT(1)` reduction line added under an active count
label. -/
def countAggregateSegment (c : String) (depth : Nat) : GenAql :=
  [aqIndent (depth + 1), .raw c, .raw " = COUNT(1)"]

/-- The entry list of the `AGGREGATE` clause: the reductions plus, unless
`count` is `false`, the implicit `COUNT(1)` line. -/
def aggregateSectionEntries (aggregated : List (String × String)) (count : CountVal)
    (depth : Nat) : List GenAql :=
  aggregateEntrySegments aggregated ++
    (match count with
      | .label c => [countAggregateSegment c depth]
      | .off => [])

/-- The count-only grouping completion clause `WITH COUNT INTO <label>`. -/
def withCountIntoSegment (c : String) (depth : Nat) : GenAql :=
  [aqIndent depth, .raw "WITH COUNT INTO ", .raw c]

/-- The `COLLECT`/`AGGREGATE`/`WITH COUNT INTO` block of `buildQuery`,
returning its segments together with the updated return-object map (the
count label is added to the map whenever a count clause is emitted). -/
def collectBlockSegments (acc : Accums) (count : CountVal) (depth : Nat) :
    List GenAql × List (String × String) :=
  if acc.aggregated.length > 0 || acc.collected.length > 0 then
    let base := [[aqIndent depth, AqToken.raw "COLLECT"],
      aqJoin (collectEntrySegments acc.collected depth) ",\n"]
    if acc.aggregated.length > 0 then
      let segs := base ++ [[aqIndent depth, AqToken.raw "AGGREGATE"],
        aqJoin (aggregateSectionEntries acc.aggregated count depth) ",\n"]
      match count with
      | .label c => (segs, recordSet acc.document c c)
      | .off => (segs, acc.document)
    else
      match count with
      | .label c =>
        (base ++ [withCountIntoSegment c depth], recordSet acc.document c c)
      | .off => (base, acc.document)
  else ([], acc.document)

/-- The sort clauses of `buildQuery`: the `null` sentinel emits a single
`SORT null`; otherwise each sort property is rendered with the document
prefix suppressed by default when aggregates are present (its own `document`
key, when present, overrides the default). -/
def sortSegments (sorts : SortsField AqSort) (aggregatesNonempty : Bool)
    (doc : String) (depth : Nat) : List GenAql :=
  match sorts with
  | .nullSort => [[aqIndent depth, .raw "SORT null"]]
  | .unset => []
  | .items l => l.map (fun p =>
      let defaultDoc : AqDoc := if aggregatesNonempty then .off else .named doc
      let pathProp : AqProperty :=
        if p.document == .unset then { p.toAqProperty with document := defaultDoc }
        else p.toAqProperty
      let path := renderPath pathProp .unset
      [aqIndent depth, .raw "SORT ", .raw path, .raw " ", .raw (sortMap p.direction)])

/-- The `LIMIT` clause: emitted for a positive numeric limit, with the limit
value bound as a parameter. -/
def limitSegments (limit : LimitField) (depth : Nat) : List GenAql :=
  match limit with
  | .num n => if n > 0 then [[aqIndent depth, .raw "LIMIT ", .bind (.prim (.num n))]] else []
  | _ => []

/-- Modelled from the spec: the remove-clause emission is part of this
repository (`AqBuilder.remove`, the `AqRemove` type and the remove tests
exercise it) but the revision of `buildQuery` present under `src/` predates
it, so the rendering itself is reconstructed from the specification ("emit
one remove clause per directive referencing the computed key expression and
target collection") and the repository's remove tests
(`REMOVE { _key: item._key } IN responses`): a bare collection name keys on
the document's `_key`; an `AqRemove` clause keys on its `property` read
from the document, or on its literal `value`. -/
def renderRemoveSegment (doc : String) (depth : Nat) : RemoveTarget → GenAql
  | .coll s =>
    [aqIndent depth, .raw "REMOVE \x7b _key: ", .raw (doc ++ "._key"), .raw " \x7d IN ", .raw s]
  | .clause c (.property pr) =>
    [aqIndent depth, .raw "REMOVE \x7b _key: ", .raw (doc ++ "." ++ pr), .raw " \x7d IN ", .raw c]
  | .clause c (.value v) =>
    [aqIndent depth, .raw "REMOVE \x7b _key: ", .raw v, .raw " \x7d IN ", .raw c]

/-- The terminal clause of `buildQuery`: suppressed for inline subqueries;
remove directives (when present) are emitted one clause per directive in
declaration order instead of any `RETURN`; otherwise the accumulated
return-object map is rendered. -/
def terminalSegments (strict : AqStrict) (documentMap : List (String × String))
    (depth : Nat) : List GenAql :=
  if strict.inline then []
  else
    match strict.remove with
    | some rs => rs.map (renderRemoveSegment strict.document depth)
    | none => [renderReturn documentMap depth strict.document]

/-- The clause assembly of `buildQuery` on an expanded spec, given the
already-rendered subquery segments: comment, `FOR`, inline subqueries,
assigned subqueries, pre-collect filters, the collect block, post-collect
filters, sorts, limit and the terminal clause, joined by newlines. -/
def assembleQuery (strict : AqStrict) (inlineSegs assignedSegs : List GenAql)
    (depth : Nat) : GenAql :=
  let pr := promoteAggregates strict.aggregates strict.ret
  let acc := accumulate strict.document pr.1 pr.2
  let cb := collectBlockSegments acc strict.count depth
  let segments :=
    (match strict.comment with
      | some c => [[AqToken.raw "/** ", .raw c, .raw " */"]]
      | none => [])
    ++ [forSegment strict.document strict.collection depth]
    ++ inlineSegs
    ++ assignedSegs
    ++ filterSegments strict.filters strict.document true depth
    ++ cb.1
    ++ filterSegments strict.filters strict.document false depth
    ++ sortSegments strict.sorts (pr.1.length != 0) strict.document depth
    ++ limitSegments strict.limit depth
    ++ terminalSegments strict cb.2 depth
  aqJoin segments "\n"

/-- The options passed to a nested render:
`...(subquery.document ? { document: subquery.document } : {})`. -/
def wrappedOptions (document : AqDoc) : AqOptions :=
  match document with
  | .named s => if s != "" then { document := some s } else {}
  | _ => {}

/-- The `LET <label> = <FUNC>(` opener of an assigned subquery. -/
def letOpenSegment (label : String) (func : Option String) (depth : Nat) : GenAql :=
  [aqIndent depth, .raw "LET ", .raw label, .raw " = ", .raw (func.getD ""), .raw "("]

/-- The closing `)` of an assigned subquery. -/
def letCloseSegment (depth : Nat) : GenAql := [aqIndent depth, .raw ")"]

theorem sizeOf_setInline (q : AqQuery) : sizeOf q.setInline = sizeOf q := by
  cases q
  simp [AqQuery.setInline]

mutual

/-- `buildQuery` from `build-query.ts`: expand, render the nested
subqueries (this is where the source's in-place `inline = true` marking
happens), and assemble the clause sequence. -/
def buildQuery (q : AqQuery) (options : AqOptions) (depth : Nat) :
    Except String GenAql :=
  match expandAqShorthand q options with
  | .error e => .error e
  | .ok strict =>
    -- `strict.subqueries` and `q.subqueries` are the same list; recursing
    -- over the constructor field keeps the recursion structural.
    match q with
    | .mk _ _ _ _ subs _ _ _ _ _ _ _ =>
      match renderInlineSubqueries subs depth with
      | .error e => .error e
      | .ok inlineSegs =>
        match renderAssignedSubqueries subs depth with
        | .error e => .error e
        | .ok assignedSegs => .ok (assembleQuery strict inlineSegs assignedSegs depth)
termination_by sizeOf q
decreasing_by all_goals simp_arith [sizeOf_setInline]

/-- The first subqueries loop of `buildQuery`: a nested subquery with no
name is marked inline (`q.query.inline = true` / `q.inline = true`, an
in-place write that persists into the second loop) and rendered correlated
in place, one nesting level deeper.  `renderSubQuery` passes the wrapper's
`document` down as the nested default iteration variable. -/
def renderInlineSubqueries (subs : List AqSubItem) (depth : Nat) :
    Except String (List GenAql) :=
  match subs with
  | [] => .ok []
  | .wrapped nm document _ _ qq :: rest =>
    match nm with
    | none =>
      match buildQuery qq.setInline (wrappedOptions document) (depth + 1) with
      | .error e => .error e
      | .ok r =>
        match renderInlineSubqueries rest depth with
        | .error e => .error e
        | .ok rs => .ok (r :: rs)
    | some _ => renderInlineSubqueries rest depth
  | .plain qq :: rest =>
    match buildQuery qq.setInline {} (depth + 1) with
    | .error e => .error e
    | .ok r =>
      match renderInlineSubqueries rest depth with
      | .error e => .error e
      | .ok rs => .ok (r :: rs)
termination_by sizeOf subs
decreasing_by all_goals simp_arith [sizeOf_setInline]

/-- The second subqueries loop of `buildQuery`: a named wrapper
(`isAqSubquery`) becomes a `LET <label> = FUNC( … )` assignment (the scalar
function is upper-cased only when it passes the support check, otherwise
`literal(undefined)` degrades to the empty string); a nameless wrapper
fails `isAqSubquery` and, having no `inline` flag of its own, is emitted as
a `LET` assignment as well (labelled from its `document`, `'ERR'`
otherwise); a bare nested query was already marked inline by the first
loop and is skipped. -/
def renderAssignedSubqueries (subs : List AqSubItem) (depth : Nat) :
    Except String (List GenAql) :=
  match subs with
  | [] => .ok []
  | .wrapped nm document type fn qq :: rest =>
    match nm with
    | some n =>
      let func : Option String :=
        match fn with
        | some f =>
          if isSupportedFunction (some f) false (type.map AqType.tag) then
            some f.toUpper
          else none
        | none => none
      let label := renderLabel { name := some n }
      match buildQuery qq (wrappedOptions document) (depth + 1) with
      | .error e => .error e
      | .ok inner =>
        match renderAssignedSubqueries rest depth with
        | .error e => .error e
        | .ok rs =>
          .ok (letOpenSegment label func depth :: inner :: letCloseSegment depth :: rs)
    | none =>
      -- the wrapper's `document ?? 'ERR'` label (a `document: false` here
      -- would crash the source's sanitizer; it is mapped to 'ERR' too)
      let label := renderLabel { name := some (match document with
        | .named s => s
        | _ => "ERR") }
      match buildQuery qq.setInline (wrappedOptions document) (depth + 1) with
      | .error e => .error e
      | .ok inner =>
        match renderAssignedSubqueries rest depth with
        | .error e => .error e
        | .ok rs =>
          .ok (letOpenSegment label none depth :: inner :: letCloseSegment depth :: rs)
  | .plain _ :: rest => renderAssignedSubqueries rest depth
termination_by sizeOf subs
decreasing_by all_goals simp_arith [sizeOf_setInline]

end

/-! ## `builder.ts`: the fluent builder's `filterBy` -/

/-- `AqBuilder.filterBy` from `builder.ts`: the filter is pushed with its
`document` scope computed from the builder's state — `false` (post-collect)
when any aggregates are already present, the spec's document variable
otherwise.  The full-object overload spreads the caller's filter and then
assigns `document`, overriding whatever the caller supplied. -/
def filterBy (spec : AqStrict) (property : Sum String AqFilter)
    (value : Option BindVal) : AqStrict :=
  let docScope : AqDoc :=
    if spec.aggregates.length > 0 then .off else .named spec.document
  match property with
  | .inl s =>
    match value with
    | none =>
      { spec with filters := spec.filters ++
          [{ document := docScope, path := some s, eq := some .null, negate := true }] }
    | some (.list vs) =>
      { spec with filters := spec.filters ++
          [{ document := docScope, path := some s, inVal := some (.vals vs) }] }
    | some (.prim v) =>
      { spec with filters := spec.filters ++
          [{ document := docScope, path := some s, eq := some v }] }
  | .inr f =>
    { spec with filters := spec.filters ++ [{ f with document := docScope }] }

/-! ## Helper lemmas -/

theorem renderLabel_erase_function (p : AqProperty) :
    renderLabel { p with function := none } = renderLabel p := rfl

/-- Appending `p` makes a fully-expanded shorthand list when the expander is
the identity on full entries. -/
theorem map_fullV_expand_id {α : Type} (f : Sh α → α) (hf : ∀ x : α, f (.fullV x) = x) :
    ∀ l : List (Sh α), l.all Sh.isFull = true →
      l.map (fun x => Sh.fullV (f x)) = l := by
  intro l hl
  induction l with
  | nil => rfl
  | cons x rest ih =>
    simp only [List.all_cons, Bool.and_eq_true] at hl
    cases x with
    | fullV v => simp [hf, ih hl.2]
    | strV s => simp [Sh.isFull] at hl
    | pairV n pa => simp [Sh.isFull] at hl

theorem map_inr_expandSort_id :
    ∀ l : List (Sum String AqSort), l.all Sum.isRight = true →
      l.map (fun x => Sum.inr (expandSortSh x)) = l := by
  intro l hl
  induction l with
  | nil => rfl
  | cons x rest ih =>
    simp only [List.all_cons, Bool.and_eq_true] at hl
    cases x with
    | inr v =>
      simp only [List.map_cons]
      rw [ih hl.2]
      rfl
    | inl s => simp [Sum.isRight] at hl

/-! ## Claim theorems -/

/-- Example query for the `in` filter with a string operand and no
`value: 'dynamic'` marking. -/
def exC1NonDyn : AqQuery :=
  .mk none "c" none false []
    [.fullV { path := some "p", inVal := some (.ref "allowed") }]
    [] .off .unset .unset none none

/-- Example query for the `in` filter with a string operand marked
`value: 'dynamic'`. -/
def exC1Dyn : AqQuery :=
  .mk none "c" none false []
    [.fullV { path := some "p", inVal := some (.ref "other.list"), value := some .dynamic }]
    [] .off .unset .unset none none

/-- C1: for the `in` comparison the `value: 'dynamic'` check is inverted
relative to every other comparison (`p.value !== 'dynamic' && typeof p.in
=== 'string'` splices raw): a plain (non-dynamic) string operand `allowed`
is emitted as raw identifier text with an empty bind-variable map, and a
`'dynamic'` string operand is bound as `@value0` — the exact opposite of
the claimed (and documented) behaviour, which `eq`/`lt`/`gt`/`contains` do
follow. -/
theorem buildQuery_in_filter_value_modes :
    (buildQuery exC1NonDyn {} 0).map aqlText =
      .ok "FOR item IN c\nFILTER item.p IN allowed\nRETURN item"
    ∧ (buildQuery exC1NonDyn {} 0).map aqlBindVars = .ok []
    ∧ (buildQuery exC1Dyn {} 0).map aqlText =
      .ok "FOR item IN c\nFILTER item.p IN @value0\nRETURN item"
    ∧ (buildQuery exC1Dyn {} 0).map aqlBindVars =
      .ok [("value0", .prim (.str "other.list"))] := by
  refine ⟨?_, ?_, ?_, ?_⟩ <;>
    first
    | (simp [buildQuery, renderInlineSubqueries, renderAssignedSubqueries,
        exC1NonDyn]; rfl)
    | (simp [buildQuery, renderInlineSubqueries, renderAssignedSubqueries,
        exC1Dyn]; rfl)

/-- C6: evaluation of `isSupportedFunction` at the inputs that decide the
claim.  `md5` is present in the table yet the type-agnostic call returns
`false`, because the no-`valueType` branch tests whether the function's own
name occurs in its accepted-type list (`supportedTypes.includes(funcName)`),
which holds for no table entry; the repository's own function-wrapping
tests require these calls to succeed.  An empty accepted-type list
(`date_now`) makes any supplied value type acceptable. -/
theorem isSupportedFunction_type_agnostic_eval :
    lookupFunctionTypes "md5" = some ["string"]
    ∧ isSupportedFunction (some "md5") false none = false
    ∧ isSupportedFunction (some "sum") true none = false
    ∧ isSupportedFunction (some "count") false none = false
    ∧ isSupportedFunction (some "missing_function") false none = false
    ∧ isSupportedFunction (some "sum") false (some "string") = false
    ∧ isSupportedFunction (some "date_now") false (some "string") = true := by
  decide

/-- The aggregate of the repository's `aggregate string property` test:
`{ name: 'label', path: 'nested.property', document: 'foo', function: 'sum' }`. -/
def exC8 : AqAggregate :=
  { name := some "label", path := some "nested.property", document := .named "foo",
    function := some "sum" }

/-- The same aggregate with `type: 'string'`. -/
def exC8s : AqAggregate := { exC8 with type := some AqType.string }

/-- The same aggregate with `type: 'number'`. -/
def exC8n : AqAggregate := { exC8 with type := some AqType.number }

/-- C8: `renderAggregatePath` currently renders the bare unwrapped path for
`sum` aggregates of every declared type, because its support check
(`isSupportedFunction(func, true)` with no value type) fails for every
aggregate function; the repository's own tests expect
`SUM(LENGTH(foo.nested.property))` (untyped) and `SUM(CHAR_LENGTH(…))`
(string-typed) here. -/
theorem renderAggregatePath_sum_eval :
    renderAggregatePath exC8 .unset = "foo.nested.property"
    ∧ renderAggregatePath exC8s .unset = "foo.nested.property"
    ∧ renderAggregatePath exC8n .unset = "foo.nested.property"
    ∧ isSupportedFunction (some "sum") true none = false := by
  decide

/-- C10: `filterBy` stores every new filter with a `document` scope computed
from the builder's current state — `false` when at least one aggregate is
already present, the spec's document variable otherwise — and, for the
full-filter-object overload, this assigned scope overwrites whatever
`document` the caller placed inside the filter. -/
theorem filterBy_scope_assignment (spec : AqStrict) (f : AqFilter)
    (v : Option BindVal) (s : String) :
    ((filterBy spec (.inr f) v).filters.getLast? =
      some { f with document :=
        if spec.aggregates.length > 0 then AqDoc.off else .named spec.document })
    ∧ ((filterBy spec (.inl s) v).filters.getLast?.map (fun fl => fl.document) =
      some (if spec.aggregates.length > 0 then AqDoc.off else .named spec.document)) := by
  constructor
  · simp [filterBy]
  · cases v with
    | none => simp [filterBy]
    | some bv => cases bv <;> simp [filterBy]

/-- A query holding a shorthand filter entry. -/
def exC5 : AqQuery :=
  .mk none "c" none false [] [.strV "x"] [] .unset .unset .unset none none

/-- C5 counterexample: expansion writes the expanded filter object back
through the caller's shared `filters` array, so after the call the caller's
array no longer equals its pre-call value. -/
theorem expand_mutates_caller_filters :
    (expandAqShorthandEffect exC5).filters ≠ exC5.filters := by decide

/-- C5 (amended): expansion shallow-copies only the top level; shorthand
elements are replaced in place through the caller's shared arrays, but a
query whose `filters`, `aggregates`, `sorts` and `return` lists are already
fully expanded is left unchanged by `expandAqShorthand`. -/
theorem expandEffect_id_of_no_shorthand (q : AqQuery) (h : noShorthand q = true) :
    expandAqShorthandEffect q = q := by
  cases q with
  | mk c co d i s f a cnt so l r rm =>
    simp only [noShorthand, AqQuery.filters, AqQuery.aggregates, AqQuery.sorts,
      AqQuery.ret, Bool.and_eq_true] at h
    obtain ⟨⟨⟨h1, h2⟩, h3⟩, h4⟩ := h
    simp only [expandAqShorthandEffect, AqQuery.comment, AqQuery.collection,
      AqQuery.document, AqQuery.inline, AqQuery.subqueries, AqQuery.filters,
      AqQuery.aggregates, AqQuery.count, AqQuery.sorts, AqQuery.limit,
      AqQuery.ret, AqQuery.remove, AqQuery.mk.injEq]
    refine ⟨trivial, trivial, trivial, trivial, trivial, ?_, ?_, trivial, ?_, trivial, ?_, trivial⟩
    · exact map_fullV_expand_id expandFilterSh (fun _ => rfl) f h1
    · exact map_fullV_expand_id expandAggregateSh (fun _ => rfl) a h2
    · cases so with
      | items lst =>
        simp only at h3
        simp [map_inr_expandSort_id lst h3]
      | unset => rfl
      | nullSort => rfl
    · cases r with
      | none => rfl
      | some rl =>
        simp only [Option.getD] at h4
        simp [map_fullV_expand_id expandReturnSh (fun _ => rfl) rl h4]

/-- A fully expanded query: no shorthand entries anywhere. -/
def exC5Strict : AqQuery :=
  .mk none "c" (some "item") false []
    [.fullV { path := some "p", eq := some (.num 1) }]
    [.fullV { path := some "g", function := some "collect" }]
    (.label "total") (.items [.inr { path := some "s", direction := .asc }])
    (.num 5) (some [.fullV { path := some "r" }]) none

theorem expandEffect_id_of_no_shorthand_witness :
    noShorthand exC5Strict = true ∧ expandAqShorthandEffect exC5Strict = exC5Strict :=
  ⟨by decide, expandEffect_id_of_no_shorthand exC5Strict (by decide)⟩

/-! ## Record-accumulator lemmas -/

theorem recordGet_map_overwrite_of_hasKey (k v : String) :
    ∀ m : List (String × String), m.any (fun kv => kv.1 == k) = true →
      recordGet (m.map (fun kv => if kv.1 == k then (kv.1, v) else kv)) k = some v := by
  intro m hm
  induction m with
  | nil => simp at hm
  | cons kv m' ih =>
    by_cases hk : kv.1 == k
    · simp [recordGet, hk]
    · simp only [List.any_cons, Bool.or_eq_true] at hm
      rcases hm with hm | hm
      · simp [hk] at hm
      · simpa [recordGet, hk] using ih hm

theorem recordGet_append_single_of_not_hasKey (k v : String) :
    ∀ m : List (String × String), m.any (fun kv => kv.1 == k) = false →
      recordGet (m ++ [(k, v)]) k = some v := by
  intro m hm
  induction m with
  | nil => simp [recordGet]
  | cons kv m' ih =>
    simp only [List.any_cons, Bool.or_eq_false_iff] at hm
    simpa [recordGet, hm.1] using ih hm.2

theorem recordGet_recordSet_self (m : List (String × String)) (k v : String) :
    recordGet (recordSet m k v) k = some v := by
  unfold recordSet
  by_cases h : m.any (fun kv => kv.1 == k)
  · simpa [h] using recordGet_map_overwrite_of_hasKey k v m h
  · simp only [Bool.not_eq_true] at h
    simpa [h] using recordGet_append_single_of_not_hasKey k v m h

theorem recordGet_map_overwrite_ne (k v k' : String) (hne : k' ≠ k) :
    ∀ m : List (String × String),
      recordGet (m.map (fun kv => if kv.1 == k then (kv.1, v) else kv)) k'
        = recordGet m k' := by
  intro m
  induction m with
  | nil => rfl
  | cons kv m' ih =>
    by_cases hk : kv.1 == k
    · have hne2 : (kv.1 == k') = false := by
        have hkk : kv.1 = k := by simpa using hk
        simp [hkk]
        exact fun he => hne he.symm
      simpa [recordGet, hk, hne2] using ih
    · by_cases hk' : kv.1 == k'
      · simp [recordGet, hk, hk']
      · simpa [recordGet, hk, hk'] using ih

theorem recordGet_append_single_ne (k v k' : String) (hne : k' ≠ k) :
    ∀ m : List (String × String),
      recordGet (m ++ [(k, v)]) k' = recordGet m k' := by
  intro m
  induction m with
  | nil =>
    have hkk : (k == k') = false := by
      simp
      exact fun he => hne he.symm
    simp [recordGet, hkk]
  | cons kv m' ih =>
    by_cases hk' : kv.1 == k'
    · simp [recordGet, hk']
    · simpa [recordGet, hk'] using ih

theorem recordGet_recordSet_ne (m : List (String × String)) (k v k' : String)
    (hne : k' ≠ k) : recordGet (recordSet m k v) k' = recordGet m k' := by
  unfold recordSet
  by_cases h : m.any (fun kv => kv.1 == k)
  · simpa [h] using recordGet_map_overwrite_ne k v k' hne m
  · simp only [Bool.not_eq_true] at h
    simpa [h] using recordGet_append_single_ne k v k' hne m

theorem recordGet_isSome_eq_hasKey (m : List (String × String)) (k : String) :
    (recordGet m k).isSome = recordHasKey m k := by
  induction m with
  | nil => rfl
  | cons kv m' ih =>
    by_cases hk : kv.1 == k
    · simp [recordGet, recordHasKey, hk]
    · simpa [recordGet, recordHasKey, hk] using ih

theorem recordHasKey_recordSet_self (m : List (String × String)) (k v : String) :
    recordHasKey (recordSet m k v) k = true := by
  rw [← recordGet_isSome_eq_hasKey, recordGet_recordSet_self]
  rfl

theorem recordHasKey_recordSet_mono (m : List (String × String)) (k v k' : String)
    (h : recordHasKey m k' = true) : recordHasKey (recordSet m k v) k' = true := by
  by_cases he : k' = k
  · subst he
    exact recordHasKey_recordSet_self m k' v
  · rw [← recordGet_isSome_eq_hasKey, recordGet_recordSet_ne m k v k' he,
      recordGet_isSome_eq_hasKey]
    exact h

theorem recordSet_map_fst_of_hasKey (m : List (String × String)) (k v : String)
    (h : m.any (fun kv => kv.1 == k) = true) :
    (recordSet m k v).map Prod.fst = m.map Prod.fst := by
  unfold recordSet
  simp only [h, if_pos, List.map_map]
  apply List.map_congr_left
  intro kv _
  by_cases hk : kv.1 == k <;> simp [Function.comp, hk]

theorem not_mem_keys_of_not_hasKey (m : List (String × String)) (k : String)
    (h : m.any (fun kv => kv.1 == k) = false) : k ∉ m.map Prod.fst := by
  intro hmem
  rcases List.mem_map.mp hmem with ⟨kv, hkv, hfst⟩
  rw [List.any_eq_false] at h
  exact absurd (by simp [hfst]) (h kv hkv)

theorem recordKeysNodup_recordSet (m : List (String × String)) (k v : String)
    (h : (m.map Prod.fst).Nodup) : ((recordSet m k v).map Prod.fst).Nodup := by
  by_cases hk : m.any (fun kv => kv.1 == k)
  · rwa [recordSet_map_fst_of_hasKey m k v hk]
  · simp only [Bool.not_eq_true] at hk
    unfold recordSet
    rw [hk]
    simp only [Bool.false_eq_true, if_neg, not_false_iff, List.map_append, List.map_cons,
      List.map_nil]
    rw [List.nodup_append]
    refine ⟨h, List.nodup_singleton k, ?_⟩
    intro a ha hb
    simp only [List.mem_singleton] at hb
    subst hb
    exact not_mem_keys_of_not_hasKey m a hk ha

/-- The return-loop accumulation leaves a key untouched when no property in
the list renders to it. -/
theorem recordGet_docMap_foldl_not_mem (doc k : String) :
    ∀ (ps : List AqProperty), (∀ q ∈ ps, renderLabel q ≠ k) →
      ∀ m, recordGet (ps.foldl
          (fun m p => recordSet m (renderLabel p) (renderPath p (.named doc))) m) k
        = recordGet m k := by
  intro ps
  induction ps with
  | nil => intro _ m; rfl
  | cons p rest ih =>
    intro h m
    simp only [List.foldl_cons]
    rw [ih (fun q hq => h q (List.mem_cons_of_mem p hq))]
    exact recordGet_recordSet_ne _ _ _ _ (h p (List.mem_cons_self p rest)).symm

theorem recordKeysNodup_docMap_foldl (doc : String) :
    ∀ (ps : List AqProperty) (m : List (String × String)),
      (m.map Prod.fst).Nodup →
      ((ps.foldl (fun m p => recordSet m (renderLabel p) (renderPath p (.named doc))) m).map
        Prod.fst).Nodup := by
  intro ps
  induction ps with
  | nil => intro m hm; exact hm
  | cons p rest ih =>
    intro m hm
    simp only [List.foldl_cons]
    exact ih _ (recordKeysNodup_recordSet _ _ _ hm)

/-- The aggregates-loop accumulation leaves a grouping key untouched when no
`collect` aggregate in the list renders to it. -/
theorem recordGet_accumulate_collected_not_mem (doc k : String) :
    ∀ (aggs : List AqAggregate),
      (∀ q ∈ aggs, q.function = some "collect" → renderLabel q ≠ k) →
      ∀ acc, recordGet ((aggs.foldl (accumulateStep doc) acc).collected) k
        = recordGet acc.collected k := by
  intro aggs
  induction aggs with
  | nil => intro _ acc; rfl
  | cons p rest ih =>
    intro h acc
    simp only [List.foldl_cons]
    rw [ih (fun q hq => h q (List.mem_cons_of_mem p hq))]
    by_cases hfn : p.function == some "collect"
    · have hfn' : p.function = some "collect" := by simpa using hfn
      simp only [accumulateStep, hfn, if_pos]
      exact recordGet_recordSet_ne _ _ _ _
        (h p (List.mem_cons_self p rest) hfn').symm
    · simp [accumulateStep, hfn]

/-- C9: the accumulators are JS records keyed by the sanitized rendered
label, assigned with plain overwrites: whenever two properties of the
return list (or two `collect` aggregates) share a sanitized label, the
record binds that label to the *later* property's rendered path, the
earlier one is silently dropped, the record never holds two entries for one
label, and no error is raised (the accumulation is total). -/
theorem label_collision_last_wins :
    (∀ (doc : String) (pre mid post : List AqProperty) (p1 p2 : AqProperty),
      renderLabel p1 = renderLabel p2 →
      (∀ q ∈ post, renderLabel q ≠ renderLabel p2) →
      recordGet (docMapOfReturn doc (pre ++ p1 :: (mid ++ p2 :: post))) (renderLabel p2)
        = some (renderPath p2 (.named doc))
      ∧ ((docMapOfReturn doc (pre ++ p1 :: (mid ++ p2 :: post))).map Prod.fst).Nodup)
    ∧ (∀ (doc : String) (pre mid post : List AqAggregate) (a1 a2 : AqAggregate),
      a2.function = some "collect" →
      renderLabel a1 = renderLabel a2 →
      (∀ q ∈ post, q.function = some "collect" → renderLabel q ≠ renderLabel a2) →
      recordGet ((accumulate doc (pre ++ a1 :: (mid ++ a2 :: post)) none).collected)
        (renderLabel a2)
        = some (renderPath { a2 with function := none } (.named doc))) := by
  constructor
  · intro doc pre mid post p1 p2 _hlab hpost
    have hL : pre ++ p1 :: (mid ++ p2 :: post) = ((pre ++ p1 :: mid) ++ [p2]) ++ post := by
      simp
    constructor
    · rw [hL]
      unfold docMapOfReturn
      rw [List.foldl_append, List.foldl_append]
      rw [recordGet_docMap_foldl_not_mem doc (renderLabel p2) post hpost]
      simp only [List.foldl_cons, List.foldl_nil]
      exact recordGet_recordSet_self _ _ _
    · exact recordKeysNodup_docMap_foldl doc _ [] (by simp)
  · intro doc pre mid post a1 a2 ha2 _hlab hpost
    have hL : pre ++ a1 :: (mid ++ a2 :: post) = ((pre ++ a1 :: mid) ++ [a2]) ++ post := by
      simp
    rw [hL]
    unfold accumulate
    rw [List.foldl_append, List.foldl_append]
    rw [recordGet_accumulate_collected_not_mem doc (renderLabel a2) post hpost]
    simp only [List.foldl_cons, List.foldl_nil]
    unfold accumulateStep
    have hfn : a2.function == some "collect" := by simp [ha2]
    simp only [hfn, if_pos]
    rw [show renderLabel { a2 with function := none } = renderLabel a2 from rfl]
    exact recordGet_recordSet_self _ _ _

/-- The colliding-label example from the claim: paths `a.b` and `a-b` both
sanitize to the label `a_b`. -/
def exP1 : AqProperty := { path := some "a.b" }

def exP2 : AqProperty := { path := some "a-b" }

theorem label_collision_last_wins_witness :
    renderLabel exP1 = renderLabel exP2
    ∧ recordGet (docMapOfReturn "item" [exP1, exP2]) (renderLabel exP2)
      = some (renderPath exP2 (.named "item"))
    ∧ ((docMapOfReturn "item" [exP1, exP2]).map Prod.fst).Nodup :=
  ⟨by decide,
    (label_collision_last_wins.1 "item" [] [] [] exP1 exP2 (by decide)
      (by intro q hq; simp at hq)).1,
    (label_collision_last_wins.1 "item" [] [] [] exP1 exP2 (by decide)
      (by intro q hq; simp at hq)).2⟩

/-! ## Aggregation-promotion lemmas (C2) -/

theorem recordHasKey_accumulate_foldl_mono (doc k : String) :
    ∀ (aggs : List AqAggregate) (acc : Accums),
      recordHasKey acc.collected k = true →
      recordHasKey ((aggs.foldl (accumulateStep doc) acc).collected) k = true := by
  intro aggs
  induction aggs with
  | nil => intro acc h; exact h
  | cons p rest ih =>
    intro acc h
    simp only [List.foldl_cons]
    apply ih
    by_cases hfn : p.function == some "collect"
    · simp only [accumulateStep, hfn, if_pos]
      exact recordHasKey_recordSet_mono _ _ _ _ h
    · simpa [accumulateStep, hfn] using h

theorem accumulate_foldl_collected_hasKey (doc : String) :
    ∀ (aggs : List AqAggregate) (acc0 : Accums) (p : AqAggregate), p ∈ aggs →
      p.function = some "collect" →
      recordHasKey ((aggs.foldl (accumulateStep doc) acc0).collected)
        (renderLabel p) = true := by
  intro aggs
  induction aggs with
  | nil => intro acc0 p hp; simp at hp
  | cons q rest ih =>
    intro acc0 p hp hc
    rcases List.mem_cons.mp hp with he | hm
    · subst he
      simp only [List.foldl_cons]
      apply recordHasKey_accumulate_foldl_mono
      have hfn : p.function == some "collect" := by simp [hc]
      simp only [accumulateStep, hfn, if_pos]
      rw [renderLabel_erase_function]
      exact recordHasKey_recordSet_self _ _ _
    · simp only [List.foldl_cons]
      exact ih _ p hm hc

theorem accumulate_collected_hasKey (doc : String) (ret : Option (List AqProperty))
    (aggs : List AqAggregate) (p : AqAggregate) (hp : p ∈ aggs)
    (hc : p.function = some "collect") :
    recordHasKey (accumulate doc aggs ret).collected (renderLabel p) = true :=
  accumulate_foldl_collected_hasKey doc aggs _ p hp hc

/-- C2: for a strict query with at least one aggregate and a return list,
every return property not scoped `document: false` survives aggregation
promotion as a `collect`-typed aggregate — its sanitized label is a key of
the grouping accumulator rendered by the `COLLECT` clause (which is then
always emitted) — and the promoted `return` list is cleared, so the return
loop contributes nothing of its own to the terminal `RETURN` expression. -/
theorem buildQuery_promotes_return_properties (strict : AqStrict)
    (rl : List AqProperty) (p : AqProperty)
    (ha : strict.aggregates ≠ []) (hr : strict.ret = some rl)
    (hp : p ∈ rl) (hd : p.document ≠ .off) :
    (promoteAggregates strict.aggregates strict.ret).2 = none
    ∧ recordHasKey (accumulate strict.document
        (promoteAggregates strict.aggregates strict.ret).1
        (promoteAggregates strict.aggregates strict.ret).2).collected
        (renderLabel p) = true
    ∧ (∀ count depth,
        (collectBlockSegments (accumulate strict.document
            (promoteAggregates strict.aggregates strict.ret).1
            (promoteAggregates strict.aggregates strict.ret).2) count depth).1 ≠ []) := by
  have hlen : strict.aggregates.length != 0 := by
    simpa using ha
  have hpr1 : (promoteAggregates strict.aggregates strict.ret).1
      = strict.aggregates ++
        ((strict.ret.getD []).filter (fun q => q.document != .off)).map
          (fun q => { q with function := some "collect" }) := by
    simp [promoteAggregates, hlen]
  have hpr2 : (promoteAggregates strict.aggregates strict.ret).2 = none := by
    simp [promoteAggregates, hlen]
  have hkey : recordHasKey (accumulate strict.document
      (promoteAggregates strict.aggregates strict.ret).1
      (promoteAggregates strict.aggregates strict.ret).2).collected
      (renderLabel p) = true := by
    have hmemf : p ∈ (strict.ret.getD []).filter (fun q => q.document != .off) := by
      rw [hr]
      simp only [Option.getD]
      apply List.mem_filter.mpr
      refine ⟨hp, ?_⟩
      simpa using hd
    have hmem : ({ p with function := some "collect" } : AqAggregate)
        ∈ (promoteAggregates strict.aggregates strict.ret).1 := by
      rw [hpr1]
      exact List.mem_append_right _ (List.mem_map.mpr ⟨p, hmemf, rfl⟩)
    have := accumulate_collected_hasKey strict.document
      (promoteAggregates strict.aggregates strict.ret).2
      (promoteAggregates strict.aggregates strict.ret).1
      { p with function := some "collect" } hmem (by rfl)
    simpa [renderLabel] using this
  refine ⟨hpr2, hkey, ?_⟩
  intro count depth
  have hcol : (accumulate strict.document
      (promoteAggregates strict.aggregates strict.ret).1
      (promoteAggregates strict.aggregates strict.ret).2).collected ≠ [] := by
    intro hnil
    rw [hnil] at hkey
    simp [recordHasKey] at hkey
  have hlen2 : 0 < (accumulate strict.document
      (promoteAggregates strict.aggregates strict.ret).1
      (promoteAggregates strict.aggregates strict.ret).2).collected.length :=
    List.length_pos_of_ne_nil hcol
  unfold collectBlockSegments
  have hcond : ((accumulate strict.document
      (promoteAggregates strict.aggregates strict.ret).1
      (promoteAggregates strict.aggregates strict.ret).2).aggregated.length > 0
      || (accumulate strict.document
      (promoteAggregates strict.aggregates strict.ret).1
      (promoteAggregates strict.aggregates strict.ret).2).collected.length > 0) = true := by
    simp [hlen2]
  rw [hcond]
  simp only [if_pos]
  split
  · split <;> simp
  · split <;> simp

/-! ## Return/remove mutual exclusivity (C3) -/

/-- Whether an `Except` computation succeeded (i.e. no error was thrown). -/
def exceptIsOk {ε α : Type} : Except ε α → Bool
  | .ok _ => true
  | .error _ => false

/-- C3: `expandAqShorthand` throws the configuration-conflict error exactly
when both `return` and `remove` are present after expansion (presence of
the fields; `remove: true` expands to a present directive list), before any
query text exists; `buildQuery`, which expands first, then fails for every
such query and succeeds (producing text) for every subquery-free query with
at most one of the two present. -/
theorem expand_return_remove_conflict (q : AqQuery) (options : AqOptions) :
    (exceptIsOk (expandAqShorthand q options) = false
      ↔ (q.remove.isSome ∧ q.ret.isSome))
    ∧ (∀ depth, q.remove.isSome → q.ret.isSome →
        exceptIsOk (buildQuery q options depth) = false)
    ∧ (∀ depth, ¬(q.remove.isSome ∧ q.ret.isSome) → q.subqueries = [] →
        exceptIsOk (buildQuery q options depth) = true) := by
  have hA : exceptIsOk (expandAqShorthand q options) = false
      ↔ (q.remove.isSome ∧ q.ret.isSome) := by
    cases hrm : q.remove <;> cases hrt : q.ret <;>
      simp [expandAqShorthand, exceptIsOk, hrm, hrt]
  refine ⟨hA, ?_, ?_⟩
  · intro depth hrm hrt
    cases hexp : expandAqShorthand q options with
    | error e =>
      cases q with
      | mk c co d i s f a cnt so l r rm =>
        simp [buildQuery, hexp, exceptIsOk]
    | ok strict =>
      exfalso
      have : exceptIsOk (expandAqShorthand q options) = false := hA.mpr ⟨hrm, hrt⟩
      rw [hexp] at this
      simp [exceptIsOk] at this
  · intro depth hboth hsub
    cases hexp : expandAqShorthand q options with
    | error e =>
      exfalso
      apply hboth
      apply hA.mp
      rw [hexp]
      rfl
    | ok strict =>
      cases q with
      | mk c co d i s f a cnt so l r rm =>
        simp only [AqQuery.subqueries] at hsub
        subst hsub
        simp [buildQuery, hexp, renderInlineSubqueries, renderAssignedSubqueries,
          exceptIsOk]

/-- A query carrying both a (here empty) `return` list and a `remove`
directive. -/
def exC3Conflict : AqQuery :=
  .mk none "c" none false [] [] [] .unset .unset .unset
    (some [.fullV { path := some "p" }]) (some .all)

/-- The same query with `remove` absent. -/
def exC3Fine : AqQuery :=
  .mk none "c" none false [] [] [] .unset .unset .unset
    (some [.fullV { path := some "p" }]) none

theorem expand_return_remove_conflict_witness :
    exceptIsOk (expandAqShorthand exC3Conflict {}) = false
    ∧ exceptIsOk (buildQuery exC3Conflict {} 0) = false
    ∧ exceptIsOk (buildQuery exC3Fine {} 0) = true :=
  ⟨(expand_return_remove_conflict exC3Conflict {}).1.mpr (by constructor <;> rfl),
    (expand_return_remove_conflict exC3Conflict {}).2.1 0 (by rfl) (by rfl),
    (expand_return_remove_conflict exC3Fine {}).2.2 0 (by decide) rfl⟩

/-! ## Count-emission exclusivity (C7) -/

theorem aqJoin_length_ge_head (e : GenAql) (rest : List GenAql) (sep : String) :
    e.length ≤ (aqJoin (e :: rest) sep).length := by
  cases rest with
  | nil => simp [aqJoin]
  | cons r rs => simp [aqJoin]

theorem ne_of_length_ne {α : Type} {a b : List α} (h : a.length ≠ b.length) :
    a ≠ b := fun he => h (by rw [he])

theorem not_mem_cons_of {x y : GenAql} {l : List GenAql} (h1 : x ≠ y)
    (h2 : x ∉ l) : x ∉ y :: l := by
  intro hm
  rcases List.mem_cons.mp hm with he | hm2
  · exact h1 he
  · exact h2 hm2

theorem withCount_ne_collectJoin (lbl : String) (depth : Nat)
    (collected : List (String × String)) :
    withCountIntoSegment lbl depth ≠ aqJoin (collectEntrySegments collected depth) ",\n" := by
  cases collected with
  | nil => simp [collectEntrySegments, aqJoin, withCountIntoSegment]
  | cons kv rest =>
    apply ne_of_length_ne
    intro hlen
    have hge := aqJoin_length_ge_head
      [aqIndent (depth + 1), AqToken.raw kv.1, .raw " = ", .raw kv.2]
      (collectEntrySegments rest depth) ",\n"
    rw [show collectEntrySegments (kv :: rest) depth
        = [aqIndent (depth + 1), AqToken.raw kv.1, .raw " = ", .raw kv.2]
          :: collectEntrySegments rest depth from rfl] at hlen
    simp only [withCountIntoSegment, List.length_cons, List.length_nil] at hlen
    simp only [List.length_cons, List.length_nil] at hge
    omega

theorem withCount_ne_aggregateJoin (lbl : String) (depth : Nat)
    (aggregated : List (String × String)) (c : CountVal)
    (h : 0 < aggregated.length) :
    withCountIntoSegment lbl depth
      ≠ aqJoin (aggregateSectionEntries aggregated c depth) ",\n" := by
  cases aggregated with
  | nil => simp at h
  | cons kv rest =>
    apply ne_of_length_ne
    intro hlen
    cases c with
    | off =>
      have hge := aqJoin_length_ge_head
        [AqToken.raw "  ", .raw kv.1, .raw " = ", .raw kv.2]
        (aggregateEntrySegments rest ++ ([] : List GenAql)) ",\n"
      rw [show aggregateSectionEntries (kv :: rest) .off depth
          = [AqToken.raw "  ", .raw kv.1, .raw " = ", .raw kv.2]
            :: (aggregateEntrySegments rest ++ ([] : List GenAql)) from rfl] at hlen
      simp only [withCountIntoSegment, List.length_cons, List.length_nil] at hlen
      simp only [List.length_cons, List.length_nil] at hge
      omega
    | label c0 =>
      have hge := aqJoin_length_ge_head
        [AqToken.raw "  ", .raw kv.1, .raw " = ", .raw kv.2]
        (aggregateEntrySegments rest ++ [countAggregateSegment c0 depth]) ",\n"
      rw [show aggregateSectionEntries (kv :: rest) (.label c0) depth
          = [AqToken.raw "  ", .raw kv.1, .raw " = ", .raw kv.2]
            :: (aggregateEntrySegments rest ++ [countAggregateSegment c0 depth])
          from rfl] at hlen
      simp only [withCountIntoSegment, List.length_cons, List.length_nil] at hlen
      simp only [List.length_cons, List.length_nil] at hge
      omega

theorem aggregateHeader_ne_collectJoin (depth : Nat)
    (collected : List (String × String)) :
    ([aqIndent depth, AqToken.raw "AGGREGATE"] : GenAql)
      ≠ aqJoin (collectEntrySegments collected depth) ",\n" := by
  cases collected with
  | nil => simp [collectEntrySegments, aqJoin]
  | cons kv rest =>
    apply ne_of_length_ne
    intro hlen
    have hge := aqJoin_length_ge_head
      [aqIndent (depth + 1), AqToken.raw kv.1, .raw " = ", .raw kv.2]
      (collectEntrySegments rest depth) ",\n"
    rw [show collectEntrySegments (kv :: rest) depth
        = [aqIndent (depth + 1), AqToken.raw kv.1, .raw " = ", .raw kv.2]
          :: collectEntrySegments rest depth from rfl] at hlen
    simp only [List.length_cons, List.length_nil] at hlen
    simp only [List.length_cons, List.length_nil] at hge
    omega

theorem aggregateHeader_ne_collectHeader (depth : Nat) :
    ([aqIndent depth, AqToken.raw "AGGREGATE"] : GenAql)
      ≠ [aqIndent depth, AqToken.raw "COLLECT"] := by
  intro he
  injection he with h1 hrest
  injection hrest with h2 _
  injection h2 with h3
  exact absurd h3 (by decide)

/-- C7: the two count-emission forms are mutually exclusive and both are
suppressed by `count: false`.  When scalar aggregates exist the grouping
block never contains the `WITH COUNT INTO` completion clause; when none
exist it never contains the `AGGREGATE` section (the only carrier of the
implicit `COUNT(1)` reduction); and with `count = false` neither the
`WITH COUNT INTO` clause nor the `COUNT(1)` entry is produced and the
return-object map gains no count key. -/
theorem count_emission_exclusive (acc : Accums) (c : CountVal) (depth : Nat) :
    (c = .off →
      (∀ lbl, withCountIntoSegment lbl depth ∉ (collectBlockSegments acc c depth).1)
      ∧ aggregateSectionEntries acc.aggregated c depth
        = aggregateEntrySegments acc.aggregated
      ∧ (collectBlockSegments acc c depth).2 = acc.document)
    ∧ (0 < acc.aggregated.length →
        ∀ lbl, withCountIntoSegment lbl depth ∉ (collectBlockSegments acc c depth).1)
    ∧ (acc.aggregated.length = 0 →
        ([aqIndent depth, AqToken.raw "AGGREGATE"] : GenAql)
          ∉ (collectBlockSegments acc c depth).1) := by
  have hwcCollect : ∀ lbl, withCountIntoSegment lbl depth
      ≠ [aqIndent depth, AqToken.raw "COLLECT"] := by
    intro lbl
    apply ne_of_length_ne
    simp [withCountIntoSegment]
  have hwcAggregate : ∀ lbl, withCountIntoSegment lbl depth
      ≠ [aqIndent depth, AqToken.raw "AGGREGATE"] := by
    intro lbl
    apply ne_of_length_ne
    simp [withCountIntoSegment]
  refine ⟨?_, ?_, ?_⟩
  · rintro rfl
    refine ⟨?_, by simp [aggregateSectionEntries], ?_⟩
    · intro lbl
      unfold collectBlockSegments
      by_cases hcond : (acc.aggregated.length > 0 || acc.collected.length > 0) = true
      · rw [hcond]
        simp only [if_pos]
        by_cases hagg : acc.aggregated.length > 0
        · rw [if_pos hagg]
          show withCountIntoSegment lbl depth ∉ _ :: _ :: _ :: _ :: ([] : List GenAql)
          exact not_mem_cons_of (hwcCollect lbl)
            (not_mem_cons_of (withCount_ne_collectJoin lbl depth acc.collected)
              (not_mem_cons_of (hwcAggregate lbl)
                (not_mem_cons_of
                  (withCount_ne_aggregateJoin lbl depth acc.aggregated .off hagg)
                  (List.not_mem_nil _))))
        · rw [if_neg hagg]
          show withCountIntoSegment lbl depth ∉ _ :: _ :: ([] : List GenAql)
          exact not_mem_cons_of (hwcCollect lbl)
            (not_mem_cons_of (withCount_ne_collectJoin lbl depth acc.collected)
              (List.not_mem_nil _))
      · simp only [Bool.not_eq_true] at hcond
        rw [hcond]
        simp
    · unfold collectBlockSegments
      by_cases hcond : (acc.aggregated.length > 0 || acc.collected.length > 0) = true
      · rw [hcond]
        simp only [if_pos]
        by_cases hagg : acc.aggregated.length > 0
        · rw [if_pos hagg]
        · rw [if_neg hagg]
      · simp only [Bool.not_eq_true] at hcond
        rw [hcond]
        simp
  · intro hagg lbl
    unfold collectBlockSegments
    have hcond : (acc.aggregated.length > 0 || acc.collected.length > 0) = true := by
      simp [hagg]
    rw [hcond]
    simp only [if_pos]
    rw [if_pos hagg]
    cases c with
    | off =>
      show withCountIntoSegment lbl depth ∉ _ :: _ :: _ :: _ :: ([] : List GenAql)
      exact not_mem_cons_of (hwcCollect lbl)
        (not_mem_cons_of (withCount_ne_collectJoin lbl depth acc.collected)
          (not_mem_cons_of (hwcAggregate lbl)
            (not_mem_cons_of
              (withCount_ne_aggregateJoin lbl depth acc.aggregated .off hagg)
              (List.not_mem_nil _))))
    | label c0 =>
      show withCountIntoSegment lbl depth ∉ _ :: _ :: _ :: _ :: ([] : List GenAql)
      exact not_mem_cons_of (hwcCollect lbl)
        (not_mem_cons_of (withCount_ne_collectJoin lbl depth acc.collected)
          (not_mem_cons_of (hwcAggregate lbl)
            (not_mem_cons_of
              (withCount_ne_aggregateJoin lbl depth acc.aggregated (.label c0) hagg)
              (List.not_mem_nil _))))
  · intro hagg
    unfold collectBlockSegments
    have hagg' : ¬ (acc.aggregated.length > 0) := by omega
    by_cases hcond : (acc.aggregated.length > 0 || acc.collected.length > 0) = true
    · rw [hcond]
      simp only [if_pos]
      rw [if_neg hagg']
      cases c with
      | off =>
        show ([aqIndent depth, AqToken.raw "AGGREGATE"] : GenAql)
          ∉ _ :: _ :: ([] : List GenAql)
        exact not_mem_cons_of (aggregateHeader_ne_collectHeader depth)
          (not_mem_cons_of (aggregateHeader_ne_collectJoin depth acc.collected)
            (List.not_mem_nil _))
      | label c0 =>
        show ([aqIndent depth, AqToken.raw "AGGREGATE"] : GenAql)
          ∉ _ :: _ :: _ :: ([] : List GenAql)
        exact not_mem_cons_of (aggregateHeader_ne_collectHeader depth)
          (not_mem_cons_of (aggregateHeader_ne_collectJoin depth acc.collected)
            (not_mem_cons_of (fun he => hwcAggregate c0 he.symm)
              (List.not_mem_nil _)))
    · simp only [Bool.not_eq_true] at hcond
      rw [hcond]
      simp

/-- A grouping state with one key and one reduction. -/
def exAcc : Accums :=
  { collected := [("grp", "item.grp")], aggregated := [("s", "SUM(item.v)")],
    document := [("grp", "grp"), ("s", "s")] }

/-- A grouping state with keys only. -/
def exAccKeys : Accums :=
  { collected := [("grp", "item.grp")], aggregated := [],
    document := [("grp", "grp")] }

theorem count_emission_exclusive_witness :
    withCountIntoSegment "total" 0 ∉ (collectBlockSegments exAcc .off 0).1
    ∧ aggregateSectionEntries exAcc.aggregated .off 0
      = aggregateEntrySegments exAcc.aggregated
    ∧ (collectBlockSegments exAcc .off 0).2 = exAcc.document
    ∧ withCountIntoSegment "total" 0 ∉ (collectBlockSegments exAcc (.label "total") 0).1
    ∧ ([aqIndent 0, AqToken.raw "AGGREGATE"] : GenAql)
      ∉ (collectBlockSegments exAccKeys (.label "total") 0).1 :=
  ⟨((count_emission_exclusive exAcc .off 0).1 rfl).1 "total",
    ((count_emission_exclusive exAcc .off 0).1 rfl).2.1,
    ((count_emission_exclusive exAcc .off 0).1 rfl).2.2,
    (count_emission_exclusive exAcc (.label "total") 0).2.1 (by decide) "total",
    (count_emission_exclusive exAccKeys (.label "total") 0).2.2 rfl⟩

/-! ## Remove-clause emission (C4) -/

theorem expandAqShorthand_ok_remove (q : AqQuery) (options : AqOptions)
    (strict : AqStrict) (h : expandAqShorthand q options = .ok strict) :
    strict.remove = q.remove.map (expandRemove q.collection) := by
  simp only [expandAqShorthand] at h
  by_cases hc : ((q.remove.map (expandRemove q.collection)).isSome
      && (q.ret.map (fun l => l.map expandReturnSh)).isSome) = true
  · rw [if_pos hc] at h
    cases h
  · rw [if_neg hc] at h
    cases h
    rfl

theorem assembleQuery_split (strict : AqStrict) (A B : List GenAql) (depth : Nat) :
    ∃ core, assembleQuery strict A B depth
      = aqJoin (core ++ terminalSegments strict
          (collectBlockSegments (accumulate strict.document
            (promoteAggregates strict.aggregates strict.ret).1
            (promoteAggregates strict.aggregates strict.ret).2)
            strict.count depth).2 depth) "\n" :=
  ⟨_, rfl⟩

/-- C4: when a non-inline query's expansion yields remove directives, the
assembled output is the clause sequence followed by exactly one remove
clause per directive in declaration order (the terminal step maps the
directive list through the remove renderer and never invokes the `RETURN`
renderer), and `remove: true` expands to the single `_key`-keyed directive
against the query's own collection. -/
theorem buildQuery_remove_clauses (q : AqQuery) (options : AqOptions) (depth : Nat)
    (strict : AqStrict) (rs : List RemoveTarget) (out : GenAql)
    (hexp : expandAqShorthand q options = .ok strict)
    (hni : strict.inline = false)
    (hrm : strict.remove = some rs)
    (hok : buildQuery q options depth = .ok out) :
    (∀ dm, terminalSegments strict dm depth
      = rs.map (renderRemoveSegment strict.document depth))
    ∧ (∃ core, out = aqJoin
        (core ++ rs.map (renderRemoveSegment strict.document depth)) "\n")
    ∧ (q.remove = some .all → rs = [.clause q.collection (.property "_key")]) := by
  have hterm : ∀ dm, terminalSegments strict dm depth
      = rs.map (renderRemoveSegment strict.document depth) := by
    intro dm
    simp [terminalSegments, hni, hrm]
  refine ⟨hterm, ?_, ?_⟩
  · cases q with
    | mk c co d i subs f a cnt so l r rm =>
      simp only [buildQuery, hexp] at hok
      cases hin : renderInlineSubqueries subs depth with
      | error e => rw [hin] at hok; cases hok
      | ok A =>
        cases has : renderAssignedSubqueries subs depth with
        | error e => rw [hin, has] at hok; cases hok
        | ok B =>
          rw [hin, has] at hok
          have hout : out = assembleQuery strict A B depth := by
            cases hok
            rfl
          obtain ⟨core, hsplit⟩ := assembleQuery_split strict A B depth
          refine ⟨core, ?_⟩
          rw [hout, hsplit, hterm]
  · intro hall
    have hrm_eq := expandAqShorthand_ok_remove q options strict hexp
    rw [hall] at hrm_eq
    rw [hrm] at hrm_eq
    simpa [expandRemove] using hrm_eq

/-- The remove-in-place query of the repository's remove tests:
`new AqBuilder('responses').filterBy('url.domain', [...]).remove()`. -/
def exC4 : AqQuery :=
  .mk none "responses" none false []
    [.fullV { path := some "url.domain", inVal := some (.vals [.str "example.com", .str "test.com"]) }]
    [] .unset .unset .unset none (some .all)

/-- The expansion of `exC4`. -/
def exC4Strict : AqStrict :=
  { comment := none, collection := "responses", document := "item", inline := false,
    subqueries := [],
    filters := [{ path := some "url.domain", inVal := some (.vals [.str "example.com", .str "test.com"]) }],
    aggregates := [], count := .label "total", sorts := .unset, limit := .unset,
    ret := none, remove := some [.clause "responses" (.property "_key")] }

/-- The assembled output of `exC4`. -/
def exC4Out : GenAql := assembleQuery exC4Strict [] [] 0

theorem buildQuery_remove_clauses_witness :
    (∀ dm, terminalSegments exC4Strict dm 0
      = [RemoveTarget.clause "responses" (.property "_key")].map
          (renderRemoveSegment exC4Strict.document 0))
    ∧ (∃ core, exC4Out = aqJoin
        (core ++ [RemoveTarget.clause "responses" (.property "_key")].map
          (renderRemoveSegment exC4Strict.document 0)) "\n")
    ∧ aqlText exC4Out
      = "FOR item IN responses\nFILTER item.url.domain IN @value0\nREMOVE \x7b _key: item._key \x7d IN responses"
    ∧ aqlBindVars exC4Out
      = [("value0", .list [.str "example.com", .str "test.com"])] := by
  have hok : buildQuery exC4 {} 0 = .ok exC4Out := by
    simp [buildQuery, renderInlineSubqueries, renderAssignedSubqueries, exC4]
    rfl
  have h := buildQuery_remove_clauses exC4 {} 0 exC4Strict
    [RemoveTarget.clause "responses" (.property "_key")] exC4Out (by rfl) (by rfl)
    (by rfl) hok
  exact ⟨h.1, h.2.1, by rfl, by rfl⟩

/-- A strict query with one grouping aggregate and one return property. -/
def exC2Strict : AqStrict :=
  { comment := none, collection := "c", document := "item", inline := false,
    subqueries := [], filters := [],
    aggregates := [{ path := some "grp", function := some "collect" }],
    count := .off, sorts := .unset, limit := .unset,
    ret := some [{ path := some "title" }], remove := none }

/-- The return property of `exC2Strict`. -/
def exC2P : AqProperty := { path := some "title" }

theorem buildQuery_promotes_return_properties_witness :
    (promoteAggregates exC2Strict.aggregates exC2Strict.ret).2 = none
    ∧ recordHasKey (accumulate exC2Strict.document
        (promoteAggregates exC2Strict.aggregates exC2Strict.ret).1
        (promoteAggregates exC2Strict.aggregates exC2Strict.ret).2).collected
        (renderLabel exC2P) = true
    ∧ (collectBlockSegments (accumulate exC2Strict.document
        (promoteAggregates exC2Strict.aggregates exC2Strict.ret).1
        (promoteAggregates exC2Strict.aggregates exC2Strict.ret).2) .off 0).1 ≠ [] :=
  have h := buildQuery_promotes_return_properties exC2Strict [exC2P] exC2P
    (by decide) rfl (by decide) (by decide)
  ⟨h.1, h.2.1, h.2.2 .off 0⟩
